import Mathlib

set_option linter.unusedVariables false

/-!
Shallow embedding of the cache subsystem (`src/core/cache_manager.py`):
cache entries, a single `Cache` with LRU/LFU/FIFO/TTL eviction, and the
`CacheManager` registry with its periodic sweep.  Timestamps are naturals
supplied by the caller (standing for `time.time()`); `max_size`,
`max_memory` and `total_memory` are `Int`, matching Python integers.
-/

/-- Values stored in a cache, mirroring the cases distinguished by
`CacheEntry._estimate_size`: pygame surfaces, sprite groups, lists/tuples,
dicts, and any other object. -/
inductive Value where
  | surface (width height : Nat)
  | group (count : Nat)
  | vlist (items : List Value)
  | vdict (pairs : List (Value × Value))
  | other

mutual

/-- `CacheEntry._estimate_size`: byte-cost estimate of a value
(`w*h*4` for surfaces, `64` per sprite, recursive sums for collections,
a constant `64` fallback). -/
def estimateSize : Value → Nat
  | .surface w h => w * h * 4
  | .group n => n * 64
  | .vlist items => estimateSizeList items
  | .vdict pairs => estimateSizePairs pairs
  | .other => 64

/-- Recursive sum for list/tuple values. -/
def estimateSizeList : List Value → Nat
  | [] => 0
  | v :: vs => estimateSize v + estimateSizeList vs

/-- Recursive sum of key and value costs for dict values. -/
def estimateSizePairs : List (Value × Value) → Nat
  | [] => 0
  | (k, v) :: ps => estimateSize k + estimateSize v + estimateSizePairs ps

end

/-- `CachePolicy.LRU`. -/
def CachePolicy.LRU : String := "lru"

/-- `CachePolicy.LFU`. -/
def CachePolicy.LFU : String := "lfu"

/-- `CachePolicy.FIFO`. -/
def CachePolicy.FIFO : String := "fifo"

/-- `CachePolicy.TTL`. -/
def CachePolicy.TTL : String := "ttl"

/-- `CacheEntry`: key, value, timestamps, access count, optional TTL and
the computed size. -/
structure CacheEntry where
  key : Nat
  value : Value
  created_at : Nat
  last_accessed : Nat
  access_count : Nat
  ttl : Option Nat
  size : Nat

/-- `CacheEntry.__init__`: the size is estimated from the value, both
timestamps are the creation instant, the access count starts at zero. -/
def mkEntry (now k : Nat) (v : Value) (ttl : Option Nat) : CacheEntry :=
  { key := k, value := v, created_at := now, last_accessed := now
    access_count := 0, ttl := ttl, size := estimateSize v }

/-- `CacheEntry.access`: return the value and bump the metadata. -/
def CacheEntry.access (e : CacheEntry) (now : Nat) : Value × CacheEntry :=
  (e.value, { e with last_accessed := now, access_count := e.access_count + 1 })

/-- `CacheEntry.is_expired`: no TTL means never expired, otherwise the age
since creation must not exceed the TTL. -/
def CacheEntry.isExpired (e : CacheEntry) (now : Nat) : Bool :=
  match e.ttl with
  | none => false
  | some t => decide (now - e.created_at > t)

/-- `Cache`: one named store.  `entries` models the `OrderedDict` as an
insertion-ordered association list.  `max_size` and `max_memory` are `Int`
because the Python constructor accepts any integer, non-positive included. -/
structure Cache where
  name : String
  max_size : Int
  max_memory : Int
  policy : String
  default_ttl : Option Nat
  entries : List CacheEntry
  total_memory : Int
  hits : Nat
  misses : Nat

/-- First entry whose key matches, like an `OrderedDict` lookup. -/
def lookupEntry : List CacheEntry → Nat → Option CacheEntry
  | [], _ => none
  | e :: es, k => if e.key = k then some e else lookupEntry es k

/-- Drop the first entry whose key matches, like `OrderedDict.pop`. -/
def eraseKey : List CacheEntry → Nat → List CacheEntry
  | [], _ => []
  | e :: es, k => if e.key = k then es else e :: eraseKey es k

/-- Replace the first entry whose key matches; models mutating the entry
object held by the dict. -/
def replaceFirst : List CacheEntry → Nat → CacheEntry → List CacheEntry
  | [], _, _ => []
  | e :: es, k, e1 => if e.key = k then e1 :: es else e :: replaceFirst es k e1

/-- `OrderedDict.move_to_end`; the call sites guarantee the key is present. -/
def moveToEnd (es : List CacheEntry) (k : Nat) : List CacheEntry :=
  match lookupEntry es k with
  | none => es
  | some e => eraseKey es k ++ [e]

/-- Python `min(keys, key=lambda k: access_count)`: scan left to right and
keep the current best, replacing it only on a strictly smaller count, so the
first minimum wins. -/
def minByAccessCount : CacheEntry → List CacheEntry → CacheEntry
  | best, [] => best
  | best, e :: es =>
      if e.access_count < best.access_count then minByAccessCount e es
      else minByAccessCount best es

/-- `Cache.__init__`. -/
def mkCache (name : String) (max_size max_memory : Int) (policy : String)
    (ttl : Option Nat) : Cache :=
  { name := name, max_size := max_size, max_memory := max_memory
    policy := policy, default_ttl := ttl, entries := [], total_memory := 0
    hits := 0, misses := 0 }

/-- `Cache.remove`: pop the entry and deduct its size from `total_memory`. -/
def Cache.remove (c : Cache) (k : Nat) : Bool × Cache :=
  match lookupEntry c.entries k with
  | none => (false, c)
  | some e =>
      (true, { c with entries := eraseKey c.entries k
                      total_memory := c.total_memory - (e.size : Int) })

/-- `Cache.get`.  The first component is `some value` on a hit; `none`
models the call returning the caller-supplied `default`. -/
def Cache.get (c : Cache) (now k : Nat) : Option Value × Cache :=
  match lookupEntry c.entries k with
  | none => (none, { c with misses := c.misses + 1 })
  | some e =>
      if e.isExpired now then
        let c1 := (c.remove k).2
        (none, { c1 with misses := c1.misses + 1 })
      else
        let ve := e.access now
        let es1 := replaceFirst c.entries k ve.2
        let es2 := if c.policy = CachePolicy.LRU then moveToEnd es1 k else es1
        (some ve.1, { c with hits := c.hits + 1, entries := es2 })

/-- `Cache._evict_expired`: collect the expired keys, then remove each. -/
def Cache.evictExpired (c : Cache) (now : Nat) : Cache :=
  let expiredKeys :=
    (c.entries.filter (fun e => e.isExpired now)).map (fun e => e.key)
  expiredKeys.foldl (fun acc k => (acc.remove k).2) c

/-- `Cache._evict_one`: pick a victim by policy (first item for LRU, FIFO
and the default branch, minimum access count for LFU) and remove it; on an
empty store report `false`. -/
def Cache.evictOne (c : Cache) : Bool × Cache :=
  match c.entries with
  | [] => (false, c)
  | e :: es =>
      let k :=
        if c.policy = CachePolicy.LRU then e.key
        else if c.policy = CachePolicy.LFU then (minByAccessCount e es).key
        else if c.policy = CachePolicy.FIFO then e.key
        else e.key
      c.remove k

/-- The `while len(entries) >= max_size: _evict_one()` loop of
`_evict_if_needed`.  The Python loop ignores `_evict_one`'s result, so with
`max_size ≤ 0` it spins forever once the store is empty.  The loop is run
with `entries.length + 1` fuel, which is enough for every terminating run;
`none` models the runs that never terminate. -/
def evictCountLoopF : Nat → Cache → Option Cache
  | 0, c => if (c.entries.length : Int) ≥ c.max_size then none else some c
  | fuel + 1, c =>
      if (c.entries.length : Int) ≥ c.max_size then
        evictCountLoopF fuel (c.evictOne).2
      else some c

/-- The `while total_memory + new_size > max_memory` loop of
`_evict_if_needed`; a failed `_evict_one` breaks the loop, so it always
terminates, and `entries.length + 1` fuel is enough for every run. -/
def evictMemLoopF : Nat → Int → Cache → Cache
  | 0, _, c => c
  | fuel + 1, newSize, c =>
      if c.total_memory + newSize > c.max_memory then
        let r := c.evictOne
        if r.1 then evictMemLoopF fuel newSize r.2 else r.2
      else c

/-- `Cache._evict_if_needed`: sweep expired entries, then the entry-count
loop, then the memory loop. -/
def Cache.evictIfNeeded (c : Cache) (now : Nat) (newSize : Int) :
    Option Cache :=
  let c1 := c.evictExpired now
  match evictCountLoopF (c1.entries.length + 1) c1 with
  | none => none
  | some c2 => some (evictMemLoopF (c2.entries.length + 1) newSize c2)

/-- Python `ttl or self.default_ttl`: both `None` and `0` are falsy. -/
def ttlOr (ttl dflt : Option Nat) : Option Nat :=
  match ttl with
  | none => dflt
  | some t => if t = 0 then dflt else some t

/-- `Cache.put`: drop any old entry under the key, build the new entry, run
the eviction pass sized for it, then append and account the new entry.
`none` models the non-returning run (see `evictCountLoopF`). -/
def Cache.put (c : Cache) (now k : Nat) (v : Value) (ttl : Option Nat) :
    Option Cache :=
  let c0 := if (lookupEntry c.entries k).isSome then (c.remove k).2 else c
  let e := mkEntry now k v (ttlOr ttl c.default_ttl)
  match c0.evictIfNeeded now (e.size : Int) with
  | none => none
  | some c1 =>
      some { c1 with entries := c1.entries ++ [e]
                     total_memory := c1.total_memory + (e.size : Int) }

/-- `Cache.clear`: empty the store and zero the counters, keeping limits
and policy. -/
def Cache.clear (c : Cache) : Cache :=
  { c with entries := [], total_memory := 0, hits := 0, misses := 0 }

/-- One external cache operation, tagged with the clock value at which it
runs. -/
inductive Op where
  | put (now k : Nat) (v : Value) (ttl : Option Nat)
  | get (now k : Nat)
  | remove (k : Nat)
  | clear

/-- Run one operation (`none` = the `put` that never returns). -/
def Cache.applyOp (c : Cache) : Op → Option Cache
  | .put now k v ttl => c.put now k v ttl
  | .get now k => some (c.get now k).2
  | .remove k => some (c.remove k).2
  | .clear => some c.clear

/-- Run a sequence of operations, stopping at a non-returning `put`. -/
def Cache.applyOps (c : Cache) : List Op → Option Cache
  | [] => some c
  | op :: ops =>
      match c.applyOp op with
      | none => none
      | some c1 => c1.applyOps ops

/-- Sum of the stored entries' computed sizes. -/
def sumSizes (es : List CacheEntry) : Int :=
  (es.map (fun e => (e.size : Int))).sum

/-- The memory-accounting invariant: `total_memory` is the exact sum of the
live entries' sizes. -/
def Cache.memOk (c : Cache) : Prop :=
  c.total_memory = sumSizes c.entries

instance (c : Cache) : Decidable c.memOk :=
  inferInstanceAs (Decidable (c.total_memory = sumSizes c.entries))

/-- The `OrderedDict` key-uniqueness invariant. -/
def Cache.keysNodup (c : Cache) : Prop :=
  (c.entries.map (fun e => e.key)).Nodup

instance (c : Cache) : Decidable c.keysNodup := by
  unfold Cache.keysNodup; exact List.nodupDecidable _

/-- `CacheManager` state: the registry plus the periodic-sweep clock.
`last_gc_time` and `gc_interval` are the spec's `last_sweep_time` and
`sweep_interval`. -/
structure CacheManager where
  caches : List (String × Cache)
  last_gc_time : Nat
  gc_interval : Nat

/-- Dict assignment `self._caches[name] = cache`: replace in place, or
append when the name is new. -/
def setAssoc : List (String × Cache) → String → Cache → List (String × Cache)
  | [], n, c => [(n, c)]
  | p :: ps, n, c => if p.1 = n then (n, c) :: ps else p :: setAssoc ps n c

/-- `CacheManager.create_cache`: build the cache with the given parameters
(no validation) and register it under the name. -/
def CacheManager.createCache (m : CacheManager) (name : String)
    (max_size max_memory : Int) (policy : String) (ttl : Option Nat) :
    CacheManager × Cache :=
  let cache := mkCache name max_size max_memory policy ttl
  ({ m with caches := setAssoc m.caches name cache }, cache)

/-- `CacheManager.get_total_memory`. -/
def CacheManager.getTotalMemory (m : CacheManager) : Int :=
  (m.caches.map (fun p => p.2.total_memory)).sum

/-- `CacheManager._run_garbage_collection`: sweep expired entries from every
cache, then force a GC pass (the returned flag) exactly when aggregate
memory exceeds the hard 200 MB ceiling. -/
def CacheManager.runGarbageCollection (m : CacheManager) (now : Nat) :
    CacheManager × Bool :=
  let m1 :=
    { m with caches := m.caches.map (fun p => (p.1, p.2.evictExpired now)) }
  (m1, decide (m1.getTotalMemory > 200 * 1024 * 1024))

/-- `CacheManager.update`: run the sweep only when
`now - last_gc_time > gc_interval` (strictly), then reset the sweep clock. -/
def CacheManager.update (m : CacheManager) (now : Nat) : CacheManager × Bool :=
  if now - m.last_gc_time > m.gc_interval then
    let r := m.runGarbageCollection now
    ({ r.1 with last_gc_time := now }, r.2)
  else (m, false)

/-- A cache holding one entry whose 5-tick TTL has lapsed by time 10. -/
def staleCache : Cache :=
  { name := "c", max_size := 10, max_memory := 1000000
    policy := CachePolicy.LRU, default_ttl := none
    entries := [mkEntry 0 0 .other (some 5)], total_memory := 64
    hits := 0, misses := 0 }

/-- A manager whose sweep interval has elapsed exactly (the boundary case). -/
def staleManager : CacheManager :=
  { caches := [("c", staleCache)], last_gc_time := 0, gc_interval := 10 }

/-- An empty manager used to exercise `createCache`. -/
def emptyManager : CacheManager :=
  { caches := [], last_gc_time := 0, gc_interval := 60 }

/-- An LFU cache with a tie on the minimum access count: the head entry has
count 1, the two later entries both have count 0. -/
def tieE0 : CacheEntry := { mkEntry 0 0 .other none with access_count := 1 }

/-- Second entry of the tie example (count 0, inserted before `tieE2`). -/
def tieE1 : CacheEntry := mkEntry 1 1 .other none

/-- Third entry of the tie example (count 0, inserted last). -/
def tieE2 : CacheEntry := mkEntry 2 2 .other none

/-- The LFU cache holding `tieE0, tieE1, tieE2` in insertion order. -/
def lfuTieCache : Cache :=
  { name := "f", max_size := 10, max_memory := 1000000
    policy := CachePolicy.LFU, default_ttl := none
    entries := [tieE0, tieE1, tieE2], total_memory := 192
    hits := 0, misses := 0 }

/-- A small LRU cache used to exercise `put` and operation sequences. -/
def demoCache : Cache := mkCache "d" 2 1000000 CachePolicy.LRU none

/-- A mixed operation sequence: puts, hits, a miss, a remove, a clear. -/
def demoOps : List Op :=
  [.put 0 0 (.surface 2 2) none, .put 1 1 .other (some 5), .get 7 1,
   .get 8 0, .remove 0, .put 9 2 .other none, .clear,
   .put 10 3 (.group 2) none]

/-- The cache produced by running `demoOps` on `demoCache`. -/
def demoRunRes : Cache := (demoCache.applyOps demoOps).get (by decide)

/-- The cache produced by one `put` on `demoCache`. -/
def demoPutRes : Cache := (demoCache.put 0 5 .other none).get (by decide)

/-- A cache with one live 64-byte entry and a 100-byte memory ceiling. -/
def bigPutCache : Cache :=
  { name := "b", max_size := 5, max_memory := 100
    policy := CachePolicy.LRU, default_ttl := none
    entries := [mkEntry 0 0 .other none], total_memory := 64
    hits := 0, misses := 0 }

/-- The result of putting a 400-byte surface into `bigPutCache`. -/
def overPutRes : Cache :=
  (bigPutCache.put 1 1 (.surface 10 10) none).get (by decide)

/-! Helper lemmas about the association-list operations. -/

lemma lookupEntry_key {l : List CacheEntry} {k : Nat} {e : CacheEntry}
    (h : lookupEntry l k = some e) : e.key = k := by
  induction l with
  | nil => simp [lookupEntry] at h
  | cons x xs ih =>
      simp only [lookupEntry] at h
      split at h
      · cases h; assumption
      · exact ih h

lemma lookupEntry_mem {l : List CacheEntry} {k : Nat} {e : CacheEntry}
    (h : lookupEntry l k = some e) : e ∈ l := by
  induction l with
  | nil => simp [lookupEntry] at h
  | cons x xs ih =>
      simp only [lookupEntry] at h
      split at h
      · cases h; exact List.mem_cons_self _ _
      · exact List.mem_cons_of_mem _ (ih h)

lemma lookupEntry_isSome_of_mem {l : List CacheEntry} {e : CacheEntry}
    (h : e ∈ l) : (lookupEntry l e.key).isSome := by
  induction l with
  | nil => simp at h
  | cons x xs ih =>
      rcases List.mem_cons.1 h with rfl | hx
      · simp [lookupEntry]
      · simp only [lookupEntry]
        split
        · rfl
        · exact ih hx

lemma lookupEntry_eq_none_iff {l : List CacheEntry} {k : Nat} :
    lookupEntry l k = none ↔ ∀ x ∈ l, x.key ≠ k := by
  induction l with
  | nil => simp [lookupEntry]
  | cons x xs ih =>
      simp only [lookupEntry]
      split
      · simp_all
      · simp_all [List.mem_cons]

lemma eraseKey_length {l : List CacheEntry} {k : Nat} {e : CacheEntry}
    (h : lookupEntry l k = some e) :
    (eraseKey l k).length + 1 = l.length := by
  induction l with
  | nil => simp [lookupEntry] at h
  | cons x xs ih =>
      simp only [lookupEntry] at h
      simp only [eraseKey]
      split at h
      · rw [if_pos (by assumption)]
        simp
      · rw [if_neg (by assumption)]
        simp [← ih h]

@[simp] lemma sumSizes_nil : sumSizes [] = 0 := rfl

@[simp] lemma sumSizes_cons (e : CacheEntry) (l : List CacheEntry) :
    sumSizes (e :: l) = (e.size : Int) + sumSizes l := by
  simp [sumSizes]

lemma sumSizes_append (l1 l2 : List CacheEntry) :
    sumSizes (l1 ++ l2) = sumSizes l1 + sumSizes l2 := by
  simp [sumSizes]

lemma sumSizes_nonneg (l : List CacheEntry) : 0 ≤ sumSizes l := by
  induction l with
  | nil => simp
  | cons e l ih => simp only [sumSizes_cons]; omega

lemma sumSizes_eraseKey {l : List CacheEntry} {k : Nat} {e : CacheEntry}
    (h : lookupEntry l k = some e) :
    sumSizes (eraseKey l k) = sumSizes l - (e.size : Int) := by
  induction l with
  | nil => simp [lookupEntry] at h
  | cons x xs ih =>
      simp only [lookupEntry] at h
      simp only [eraseKey]
      split at h
      · cases h
        rw [if_pos (by assumption)]
        simp only [sumSizes_cons]; omega
      · rw [if_neg (by assumption)]
        simp only [sumSizes_cons, ih h]; omega

lemma eraseKey_sublist (l : List CacheEntry) (k : Nat) :
    List.Sublist (eraseKey l k) l := by
  induction l with
  | nil => simp [eraseKey]
  | cons x xs ih =>
      simp only [eraseKey]
      split
      · exact List.sublist_cons_self _ _
      · exact List.Sublist.cons₂ _ ih

lemma mem_eraseKey_key_ne {l : List CacheEntry} {k : Nat} {x : CacheEntry}
    (h : (l.map (fun e => e.key)).Nodup) (hx : x ∈ eraseKey l k) :
    x.key ≠ k := by
  induction l with
  | nil => simp [eraseKey] at hx
  | cons y ys ih =>
      simp only [List.map_cons, List.nodup_cons] at h
      simp only [eraseKey] at hx
      split at hx
      · intro hk
        exact h.1 (List.mem_map.2 ⟨x, hx, by rw [hk]; symm; assumption⟩)
      · rcases List.mem_cons.1 hx with rfl | hx2
        · intro hk; exact absurd hk (by assumption)
        · exact ih h.2 hx2

lemma lookupEntry_eraseKey_self {l : List CacheEntry} {k : Nat}
    (h : (l.map (fun e => e.key)).Nodup) :
    lookupEntry (eraseKey l k) k = none :=
  lookupEntry_eq_none_iff.2 (fun x hx => mem_eraseKey_key_ne h hx)

lemma sumSizes_replaceFirst {l : List CacheEntry} {k : Nat}
    {e e1 : CacheEntry} (h : lookupEntry l k = some e)
    (hsz : e1.size = e.size) :
    sumSizes (replaceFirst l k e1) = sumSizes l := by
  induction l with
  | nil => simp [lookupEntry] at h
  | cons x xs ih =>
      simp only [lookupEntry] at h
      simp only [replaceFirst]
      split at h
      · cases h
        rw [if_pos (by assumption)]
        simp only [sumSizes_cons, hsz]
      · rw [if_neg (by assumption)]
        simp only [sumSizes_cons, ih h]

lemma lookupEntry_replaceFirst {l : List CacheEntry} {k : Nat}
    {e e1 : CacheEntry} (h : lookupEntry l k = some e) (hk : e1.key = k) :
    lookupEntry (replaceFirst l k e1) k = some e1 := by
  induction l with
  | nil => simp [lookupEntry] at h
  | cons x xs ih =>
      simp only [lookupEntry] at h
      simp only [replaceFirst]
      split at h
      · rw [if_pos (by assumption)]
        simp [lookupEntry, hk]
      · rw [if_neg (by assumption)]
        simp only [lookupEntry]
        rw [if_neg (by assumption)]
        exact ih h

lemma replaceFirst_map_key {l : List CacheEntry} {k : Nat} {e1 : CacheEntry}
    (hk : e1.key = k) :
    (replaceFirst l k e1).map (fun e => e.key) = l.map (fun e => e.key) := by
  induction l with
  | nil => simp [replaceFirst]
  | cons x xs ih =>
      simp only [replaceFirst]
      split
      · simp only [List.map_cons, hk]
        congr 1
        symm; assumption
      · simp only [List.map_cons, ih]

lemma sumSizes_moveToEnd (l : List CacheEntry) (k : Nat) :
    sumSizes (moveToEnd l k) = sumSizes l := by
  unfold moveToEnd
  cases h : lookupEntry l k with
  | none => rfl
  | some e =>
      simp only [sumSizes_append, sumSizes_eraseKey h, sumSizes_cons,
        sumSizes_nil]
      omega

lemma minByAccessCount_mem (l : List CacheEntry) (b : CacheEntry) :
    minByAccessCount b l ∈ b :: l := by
  induction l generalizing b with
  | nil => simp [minByAccessCount]
  | cons x xs ih =>
      simp only [minByAccessCount]
      split
      · rcases List.mem_cons.1 (ih x) with h | h
        · rw [h]; simp
        · exact List.mem_cons_of_mem _ (List.mem_cons_of_mem _ h)
      · rcases List.mem_cons.1 (ih b) with h | h
        · rw [h]; exact List.mem_cons_self _ _
        · exact List.mem_cons_of_mem _ (List.mem_cons_of_mem _ h)

lemma minByAccessCount_le (l : List CacheEntry) :
    ∀ b x : CacheEntry, x ∈ b :: l →
      (minByAccessCount b l).access_count ≤ x.access_count := by
  induction l with
  | nil =>
      intro b x hx
      rcases List.mem_cons.1 hx with rfl | h
      · exact le_refl _
      · simp at h
  | cons y ys ih =>
      intro b x hx
      simp only [minByAccessCount]
      split
      next hlt =>
        rcases List.mem_cons.1 hx with rfl | h
        · have h1 := ih y y (List.mem_cons_self _ _)
          omega
        · rcases List.mem_cons.1 h with rfl | h2
          · exact ih x x (List.mem_cons_self _ _)
          · exact ih y x (List.mem_cons_of_mem _ h2)
      next hge =>
        rcases List.mem_cons.1 hx with rfl | h
        · exact ih x x (List.mem_cons_self _ _)
        · rcases List.mem_cons.1 h with rfl | h2
          · have h1 := ih b b (List.mem_cons_self _ _)
            omega
          · exact ih b x (List.mem_cons_of_mem _ h2)

lemma minByAccessCount_first (l : List CacheEntry) (b : CacheEntry) :
    ∃ l1 l2, b :: l = l1 ++ minByAccessCount b l :: l2 ∧
      ∀ x ∈ l1, (minByAccessCount b l).access_count < x.access_count := by
  induction l generalizing b with
  | nil => exact ⟨[], [], rfl, by simp⟩
  | cons y ys ih =>
      simp only [minByAccessCount]
      split
      next hlt =>
        rcases ih y with ⟨l1, l2, heq, hmin⟩
        refine ⟨b :: l1, l2, by rw [List.cons_append, ← heq], ?_⟩
        intro x hx
        rcases List.mem_cons.1 hx with rfl | h
        · have h1 := minByAccessCount_le ys y y (List.mem_cons_self _ _)
          omega
        · exact hmin x h
      next hge =>
        rcases ih b with ⟨l1, l2, heq, hmin⟩
        cases l1 with
        | nil =>
            simp only [List.nil_append] at heq
            injection heq with h1 h2
            refine ⟨[], y :: ys, ?_, by simp⟩
            rw [List.nil_append, ← h1]
        | cons a l1t =>
            rw [List.cons_append] at heq
            injection heq with h1 h2
            have hminb : (minByAccessCount b ys).access_count <
                b.access_count := by
              have h3 := hmin a (List.mem_cons_self _ _)
              rw [← h1] at h3
              exact h3
            refine ⟨b :: y :: l1t, l2, ?_, ?_⟩
            · simp only [List.cons_append]
              rw [← h2]
            · intro x hx
              rcases List.mem_cons.1 hx with rfl | h
              · exact hminb
              · rcases List.mem_cons.1 h with rfl | h2m
                · omega
                · exact hmin x (List.mem_cons_of_mem _ h2m)

/-! Helper lemmas about `Cache.remove`, `Cache._evict_one`,
`Cache._evict_expired` and the two eviction loops. -/

@[simp] lemma remove_max_size (c : Cache) (k : Nat) :
    (c.remove k).2.max_size = c.max_size := by
  unfold Cache.remove; split <;> rfl

@[simp] lemma remove_max_memory (c : Cache) (k : Nat) :
    (c.remove k).2.max_memory = c.max_memory := by
  unfold Cache.remove; split <;> rfl

@[simp] lemma remove_policy (c : Cache) (k : Nat) :
    (c.remove k).2.policy = c.policy := by
  unfold Cache.remove; split <;> rfl

@[simp] lemma remove_default_ttl (c : Cache) (k : Nat) :
    (c.remove k).2.default_ttl = c.default_ttl := by
  unfold Cache.remove; split <;> rfl

@[simp] lemma remove_hits (c : Cache) (k : Nat) :
    (c.remove k).2.hits = c.hits := by
  unfold Cache.remove; split <;> rfl

@[simp] lemma remove_misses (c : Cache) (k : Nat) :
    (c.remove k).2.misses = c.misses := by
  unfold Cache.remove; split <;> rfl

lemma remove_memOk {c : Cache} (k : Nat) (h : c.memOk) :
    (c.remove k).2.memOk := by
  unfold Cache.remove
  unfold Cache.memOk at h ⊢
  split
  · exact h
  next e heq =>
      simp only
      rw [sumSizes_eraseKey heq, h]

lemma remove_entries_sublist (c : Cache) (k : Nat) :
    List.Sublist (c.remove k).2.entries c.entries := by
  unfold Cache.remove
  split
  · exact List.Sublist.refl _
  · exact eraseKey_sublist _ _

lemma remove_keysNodup {c : Cache} (k : Nat) (h : c.keysNodup) :
    (c.remove k).2.keysNodup :=
  List.Nodup.sublist (List.Sublist.map _ (remove_entries_sublist c k)) h

lemma remove_no_key {c : Cache} {k : Nat} (h : c.keysNodup) :
    ∀ x ∈ (c.remove k).2.entries, x.key ≠ k := by
  unfold Cache.remove
  split
  next heq => exact fun x hx => lookupEntry_eq_none_iff.1 heq x hx
  next e heq => exact fun x hx => mem_eraseKey_key_ne h hx

lemma remove_of_mem (c : Cache) {x : CacheEntry} (hx : x ∈ c.entries) :
    (c.remove x.key).1 = true ∧
      (c.remove x.key).2.entries.length + 1 = c.entries.length := by
  have hs := lookupEntry_isSome_of_mem hx
  unfold Cache.remove
  cases hE : lookupEntry c.entries x.key with
  | none => rw [hE] at hs; simp at hs
  | some e =>
      refine ⟨rfl, ?_⟩
      simpa using eraseKey_length hE

lemma evictOne_eq_remove (c : Cache) (e : CacheEntry) (es : List CacheEntry)
    (he : c.entries = e :: es) :
    c.evictOne = c.remove
      (if c.policy = CachePolicy.LRU then e.key
       else if c.policy = CachePolicy.LFU then (minByAccessCount e es).key
       else if c.policy = CachePolicy.FIFO then e.key
       else e.key) := by
  unfold Cache.evictOne
  rw [he]

lemma evictOne_choice (c : Cache) (e : CacheEntry) (es : List CacheEntry)
    (he : c.entries = e :: es) :
    ∃ x, x ∈ c.entries ∧ c.evictOne = c.remove x.key := by
  rw [evictOne_eq_remove c e es he]
  by_cases h1 : c.policy = CachePolicy.LRU
  · exact ⟨e, by rw [he]; exact List.mem_cons_self _ _, by rw [if_pos h1]⟩
  · by_cases h2 : c.policy = CachePolicy.LFU
    · refine ⟨minByAccessCount e es, ?_, ?_⟩
      · rw [he]; exact minByAccessCount_mem es e
      · rw [if_neg h1, if_pos h2]
    · refine ⟨e, by rw [he]; exact List.mem_cons_self _ _, ?_⟩
      rw [if_neg h1, if_neg h2]
      split <;> rfl

lemma evictOne_nonempty (c : Cache) (e : CacheEntry) (es : List CacheEntry)
    (he : c.entries = e :: es) :
    (c.evictOne).1 = true ∧
      (c.evictOne).2.entries.length + 1 = c.entries.length := by
  rcases evictOne_choice c e es he with ⟨x, hx, heq⟩
  rw [heq]
  exact remove_of_mem c hx

lemma evictOne_empty (c : Cache) (he : c.entries = []) :
    c.evictOne = (false, c) := by
  unfold Cache.evictOne
  rw [he]

lemma evictOne_false {c : Cache} (h : (c.evictOne).1 = false) :
    (c.evictOne).2 = c := by
  cases he : c.entries with
  | nil => rw [evictOne_empty c he]
  | cons e es =>
      have := (evictOne_nonempty c e es he).1
      rw [this] at h
      simp at h

@[simp] lemma evictOne_max_size (c : Cache) :
    (c.evictOne).2.max_size = c.max_size := by
  unfold Cache.evictOne
  split
  · rfl
  · simp

@[simp] lemma evictOne_max_memory (c : Cache) :
    (c.evictOne).2.max_memory = c.max_memory := by
  unfold Cache.evictOne
  split
  · rfl
  · simp

@[simp] lemma evictOne_policy (c : Cache) :
    (c.evictOne).2.policy = c.policy := by
  unfold Cache.evictOne
  split
  · rfl
  · simp

lemma evictOne_memOk {c : Cache} (h : c.memOk) : (c.evictOne).2.memOk := by
  unfold Cache.evictOne
  split
  · exact h
  · exact remove_memOk _ h

lemma evictOne_length_le (c : Cache) :
    (c.evictOne).2.entries.length ≤ c.entries.length := by
  cases he : c.entries with
  | nil =>
      rw [evictOne_empty c he]
      simp [he]
  | cons e es =>
      have h2 := (evictOne_nonempty c e es he).2
      rw [he] at h2
      omega

lemma foldRemove_max_size (ks : List Nat) :
    ∀ c : Cache,
      (ks.foldl (fun acc k => (acc.remove k).2) c).max_size = c.max_size := by
  induction ks with
  | nil => intro c; rfl
  | cons k ks ih =>
      intro c
      rw [List.foldl_cons, ih]
      simp

lemma foldRemove_max_memory (ks : List Nat) :
    ∀ c : Cache,
      (ks.foldl (fun acc k => (acc.remove k).2) c).max_memory =
        c.max_memory := by
  induction ks with
  | nil => intro c; rfl
  | cons k ks ih =>
      intro c
      rw [List.foldl_cons, ih]
      simp

lemma foldRemove_policy (ks : List Nat) :
    ∀ c : Cache,
      (ks.foldl (fun acc k => (acc.remove k).2) c).policy = c.policy := by
  induction ks with
  | nil => intro c; rfl
  | cons k ks ih =>
      intro c
      rw [List.foldl_cons, ih]
      simp

lemma foldRemove_memOk (ks : List Nat) :
    ∀ c : Cache, c.memOk →
      (ks.foldl (fun acc k => (acc.remove k).2) c).memOk := by
  induction ks with
  | nil => intro c h; exact h
  | cons k ks ih =>
      intro c h
      rw [List.foldl_cons]
      exact ih _ (remove_memOk k h)

lemma foldRemove_sublist (ks : List Nat) :
    ∀ c : Cache,
      List.Sublist (ks.foldl (fun acc k => (acc.remove k).2) c).entries
        c.entries := by
  induction ks with
  | nil => intro c; exact List.Sublist.refl _
  | cons k ks ih =>
      intro c
      rw [List.foldl_cons]
      exact List.Sublist.trans (ih _) (remove_entries_sublist c k)

lemma foldRemove_keysNodup (ks : List Nat) :
    ∀ c : Cache, c.keysNodup →
      (ks.foldl (fun acc k => (acc.remove k).2) c).keysNodup := by
  induction ks with
  | nil => intro c h; exact h
  | cons k ks ih =>
      intro c h
      rw [List.foldl_cons]
      exact ih _ (remove_keysNodup k h)

lemma foldRemove_key_notin (ks : List Nat) :
    ∀ c : Cache, c.keysNodup →
      ∀ x ∈ (ks.foldl (fun acc k => (acc.remove k).2) c).entries,
        x.key ∉ ks := by
  induction ks with
  | nil => intro c h x hx; simp
  | cons k ks ih =>
      intro c h x hx
      rw [List.foldl_cons] at hx
      simp only [List.mem_cons, not_or]
      constructor
      · have hsub :=
          (foldRemove_sublist ks (c.remove k).2).subset hx
        exact remove_no_key h x hsub
      · exact ih _ (remove_keysNodup k h) x hx

@[simp] lemma evictExpired_max_size (c : Cache) (now : Nat) :
    (c.evictExpired now).max_size = c.max_size := by
  unfold Cache.evictExpired
  exact foldRemove_max_size _ _

@[simp] lemma evictExpired_max_memory (c : Cache) (now : Nat) :
    (c.evictExpired now).max_memory = c.max_memory := by
  unfold Cache.evictExpired
  exact foldRemove_max_memory _ _

@[simp] lemma evictExpired_policy (c : Cache) (now : Nat) :
    (c.evictExpired now).policy = c.policy := by
  unfold Cache.evictExpired
  exact foldRemove_policy _ _

lemma evictExpired_memOk {c : Cache} (now : Nat) (h : c.memOk) :
    (c.evictExpired now).memOk := by
  unfold Cache.evictExpired
  exact foldRemove_memOk _ _ h

lemma evictExpired_no_expired {c : Cache} {now : Nat} (h : c.keysNodup) :
    ∀ x ∈ (c.evictExpired now).entries, x.isExpired now = false := by
  intro x hx
  cases hexp : x.isExpired now with
  | false => rfl
  | true =>
      exfalso
      unfold Cache.evictExpired at hx
      have hmem : x ∈ c.entries := (foldRemove_sublist _ _).subset hx
      have hkey : x.key ∈
          ((c.entries.filter (fun e => e.isExpired now)).map
            (fun e => e.key)) :=
        List.mem_map.2 ⟨x, List.mem_filter.2 ⟨hmem, hexp⟩, rfl⟩
      exact foldRemove_key_notin _ _ h x hx hkey

/-! Lemmas about the two fuel-indexed eviction loops. -/

lemma countLoop_some_lt :
    ∀ (fuel : Nat) (c c' : Cache), evictCountLoopF fuel c = some c' →
      (c'.entries.length : Int) < c'.max_size := by
  intro fuel
  induction fuel with
  | zero =>
      intro c c' h
      unfold evictCountLoopF at h
      split at h
      · exact absurd h (by simp)
      next hcond =>
        cases h
        omega
  | succ n ih =>
      intro c c' h
      unfold evictCountLoopF at h
      split at h
      · exact ih _ _ h
      next hcond =>
        cases h
        omega

lemma countLoop_config :
    ∀ (fuel : Nat) (c c' : Cache), evictCountLoopF fuel c = some c' →
      c'.max_size = c.max_size ∧ c'.max_memory = c.max_memory ∧
        c'.policy = c.policy := by
  intro fuel
  induction fuel with
  | zero =>
      intro c c' h
      unfold evictCountLoopF at h
      split at h
      · exact absurd h (by simp)
      · cases h; exact ⟨rfl, rfl, rfl⟩
  | succ n ih =>
      intro c c' h
      unfold evictCountLoopF at h
      split at h
      · rcases ih _ _ h with ⟨h1, h2, h3⟩
        exact ⟨h1.trans (evictOne_max_size c), h2.trans (evictOne_max_memory c),
          h3.trans (evictOne_policy c)⟩
      · cases h; exact ⟨rfl, rfl, rfl⟩

lemma countLoop_memOk :
    ∀ (fuel : Nat) (c c' : Cache), c.memOk →
      evictCountLoopF fuel c = some c' → c'.memOk := by
  intro fuel
  induction fuel with
  | zero =>
      intro c c' hm h
      unfold evictCountLoopF at h
      split at h
      · exact absurd h (by simp)
      · cases h; exact hm
  | succ n ih =>
      intro c c' hm h
      unfold evictCountLoopF at h
      split at h
      · exact ih _ _ (evictOne_memOk hm) h
      · cases h; exact hm

lemma countLoop_none_of_nonpos :
    ∀ (fuel : Nat) (c : Cache), c.max_size ≤ 0 →
      evictCountLoopF fuel c = none := by
  intro fuel
  induction fuel with
  | zero =>
      intro c h
      unfold evictCountLoopF
      rw [if_pos]
      exact le_trans h (by positivity)
  | succ n ih =>
      intro c h
      unfold evictCountLoopF
      rw [if_pos]
      · exact ih _ (by simpa using h)
      · exact le_trans h (by positivity)

lemma memLoop_max_memory :
    ∀ (fuel : Nat) (ns : Int) (c : Cache),
      (evictMemLoopF fuel ns c).max_memory = c.max_memory := by
  intro fuel
  induction fuel with
  | zero => intro ns c; rfl
  | succ n ih =>
      intro ns c
      unfold evictMemLoopF
      dsimp only
      split
      · split
        · rw [ih]
          simp
        next hfalse => rw [evictOne_false (Bool.of_not_eq_true hfalse)]
      · rfl

lemma memLoop_memOk :
    ∀ (fuel : Nat) (ns : Int) (c : Cache), c.memOk →
      (evictMemLoopF fuel ns c).memOk := by
  intro fuel
  induction fuel with
  | zero => intro ns c h; exact h
  | succ n ih =>
      intro ns c h
      unfold evictMemLoopF
      dsimp only
      split
      · split
        · exact ih _ _ (evictOne_memOk h)
        next hfalse =>
          rw [evictOne_false (Bool.of_not_eq_true hfalse)]
          exact h
      · exact h

lemma memLoop_length_le :
    ∀ (fuel : Nat) (ns : Int) (c : Cache),
      (evictMemLoopF fuel ns c).entries.length ≤ c.entries.length := by
  intro fuel
  induction fuel with
  | zero => intro ns c; exact le_refl _
  | succ n ih =>
      intro ns c
      unfold evictMemLoopF
      dsimp only
      split
      · split
        · exact le_trans (ih _ _) (evictOne_length_le c)
        next hfalse =>
          rw [evictOne_false (Bool.of_not_eq_true hfalse)]
      · exact le_refl _

lemma memLoop_post :
    ∀ (fuel : Nat) (ns : Int) (c : Cache), c.entries.length < fuel →
      (evictMemLoopF fuel ns c).total_memory + ns ≤
          (evictMemLoopF fuel ns c).max_memory ∨
        ((evictMemLoopF fuel ns c).entries = [] ∧
          (evictMemLoopF fuel ns c).total_memory + ns >
            (evictMemLoopF fuel ns c).max_memory) := by
  intro fuel
  induction fuel with
  | zero => intro ns c hf; exact absurd hf (Nat.not_lt_zero _)
  | succ n ih =>
      intro ns c hf
      unfold evictMemLoopF
      dsimp only
      split
      next hcond =>
        by_cases hnil : c.entries = []
        · rw [evictOne_empty c hnil]
          rw [if_neg (by simp)]
          exact Or.inr ⟨hnil, hcond⟩
        · rcases List.exists_cons_of_ne_nil hnil with ⟨e, es, he⟩
          have htrue := (evictOne_nonempty c e es he).1
          have hlen := (evictOne_nonempty c e es he).2
          rw [if_pos htrue]
          apply ih
          omega
      next hcond => exact Or.inl (by omega)

@[simp] lemma mkEntry_size (now k : Nat) (v : Value) (ttl : Option Nat) :
    (mkEntry now k v ttl).size = estimateSize v := rfl

@[simp] lemma mkEntry_key (now k : Nat) (v : Value) (ttl : Option Nat) :
    (mkEntry now k v ttl).key = k := rfl

@[simp] lemma putBase_max_size (c : Cache) (k : Nat) :
    (if (lookupEntry c.entries k).isSome then (c.remove k).2
      else c).max_size = c.max_size := by
  split <;> simp

@[simp] lemma putBase_max_memory (c : Cache) (k : Nat) :
    (if (lookupEntry c.entries k).isSome then (c.remove k).2
      else c).max_memory = c.max_memory := by
  split <;> simp

lemma putBase_memOk {c : Cache} (k : Nat) (h : c.memOk) :
    (if (lookupEntry c.entries k).isSome then (c.remove k).2
      else c).memOk := by
  split
  · exact remove_memOk k h
  · exact h

lemma evictIfNeeded_some {c : Cache} {now : Nat} {ns : Int} {c1 : Cache}
    (h : c.evictIfNeeded now ns = some c1) :
    ∃ c2, evictCountLoopF ((c.evictExpired now).entries.length + 1)
        (c.evictExpired now) = some c2 ∧
      c1 = evictMemLoopF (c2.entries.length + 1) ns c2 := by
  unfold Cache.evictIfNeeded at h
  dsimp only at h
  cases hE : evictCountLoopF ((c.evictExpired now).entries.length + 1)
      (c.evictExpired now) with
  | none => rw [hE] at h; simp at h
  | some c2 =>
      rw [hE] at h
      simp only [Option.some.injEq] at h
      exact ⟨c2, rfl, h.symm⟩

lemma put_some {c : Cache} {now k : Nat} {v : Value} {ttl : Option Nat}
    {c' : Cache} (h : c.put now k v ttl = some c') :
    ∃ c1, (if (lookupEntry c.entries k).isSome then (c.remove k).2
          else c).evictIfNeeded now (estimateSize v : Int) = some c1 ∧
      c' = { c1 with
             entries := c1.entries ++ [mkEntry now k v (ttlOr ttl c.default_ttl)]
             total_memory := c1.total_memory + (estimateSize v : Int) } := by
  unfold Cache.put at h
  dsimp only at h
  simp only [mkEntry_size] at h
  cases hE : (if (lookupEntry c.entries k).isSome then (c.remove k).2
      else c).evictIfNeeded now (estimateSize v : Int) with
  | none => rw [hE] at h; simp at h
  | some c1 =>
      rw [hE] at h
      simp only [Option.some.injEq] at h
      exact ⟨c1, rfl, h.symm⟩

lemma put_memOk {c : Cache} {now k : Nat} {v : Value} {ttl : Option Nat}
    {c' : Cache} (hm : c.memOk) (h : c.put now k v ttl = some c') :
    c'.memOk := by
  rcases put_some h with ⟨c1, hE, hc'⟩
  rcases evictIfNeeded_some hE with ⟨c2, hCnt, hMem⟩
  have hm2 : c2.memOk :=
    countLoop_memOk _ _ _ (evictExpired_memOk now (putBase_memOk k hm)) hCnt
  have hm1 : c1.memOk := by
    rw [hMem]
    exact memLoop_memOk _ _ _ hm2
  rw [hc']
  unfold Cache.memOk at hm1 ⊢
  simp only [sumSizes_append, sumSizes_cons, sumSizes_nil, mkEntry_size]
  omega

lemma get_memOk {c : Cache} (now k : Nat) (h : c.memOk) :
    ((c.get now k).2).memOk := by
  unfold Cache.get
  cases hE : lookupEntry c.entries k with
  | none => exact h
  | some e =>
      dsimp only
      split
      · exact remove_memOk k h
      · have hsum1 : sumSizes (replaceFirst c.entries k ((e.access now).2)) =
            sumSizes c.entries := sumSizes_replaceFirst hE rfl
        unfold Cache.memOk at h ⊢
        dsimp only
        split
        · rw [sumSizes_moveToEnd, hsum1]; exact h
        · rw [hsum1]; exact h

lemma clear_memOk (c : Cache) : c.clear.memOk := rfl

lemma applyOp_memOk {c : Cache} {op : Op} {c' : Cache} (hm : c.memOk)
    (h : c.applyOp op = some c') : c'.memOk := by
  cases op with
  | put now k v ttl => exact put_memOk hm h
  | get now k =>
      cases h
      exact get_memOk now k hm
  | remove k =>
      cases h
      exact remove_memOk k hm
  | clear =>
      cases h
      exact clear_memOk c

lemma remove_entries_of_some {c : Cache} {k : Nat} {e : CacheEntry}
    (hl : lookupEntry c.entries k = some e) :
    (c.remove k).2.entries = eraseKey c.entries k := by
  unfold Cache.remove
  rw [hl]

lemma evictIfNeeded_none_of_nonpos (c : Cache) (h : c.max_size ≤ 0)
    (now : Nat) (ns : Int) : c.evictIfNeeded now ns = none := by
  unfold Cache.evictIfNeeded
  dsimp only
  rw [countLoop_none_of_nonpos _ _ (by rw [evictExpired_max_size]; exact h)]

lemma put_none_of_nonpos_max_size (c : Cache) (hms : c.max_size ≤ 0)
    (now k : Nat) (v : Value) (t : Option Nat) :
    c.put now k v t = none := by
  unfold Cache.put
  dsimp only
  rw [evictIfNeeded_none_of_nonpos _ (by rw [putBase_max_size]; exact hms)]

/-! The claims. -/

/-- C1: after any sequence of operations that returns (put, get with its lazy
expiry removal, remove, clear), `total_memory` equals the sum of the live
entries' computed sizes. -/
theorem applyOps_preserves_memOk (ops : List Op) (c c' : Cache)
    (hm : c.memOk) (h : c.applyOps ops = some c') : c'.memOk := by
  induction ops generalizing c with
  | nil =>
      unfold Cache.applyOps at h
      cases h
      exact hm
  | cons op ops ih =>
      unfold Cache.applyOps at h
      cases hA : c.applyOp op with
      | none => rw [hA] at h; simp at h
      | some c1 =>
          rw [hA] at h
          dsimp only at h
          exact ih _ (applyOp_memOk hm hA) h

/-- C1 witness: a concrete mixed run of eight operations preserves the
memory-accounting invariant. -/
theorem applyOps_preserves_memOk_example : demoRunRes.memOk :=
  applyOps_preserves_memOk demoOps demoCache demoRunRes (by decide)
    (Option.some_get (by decide)).symm

/-- C2: immediately after any `put` that returns, the number of stored
entries is at most `max_size`. -/
theorem put_entries_le_max_size (c : Cache) (now k : Nat) (v : Value)
    (ttl : Option Nat) (c' : Cache) (h : c.put now k v ttl = some c') :
    (c'.entries.length : Int) ≤ c.max_size := by
  rcases put_some h with ⟨c1, hE, hc'⟩
  rcases evictIfNeeded_some hE with ⟨c2, hCnt, hMem⟩
  have hlt := countLoop_some_lt _ _ _ hCnt
  have hms : c2.max_size = c.max_size := by
    rw [(countLoop_config _ _ _ hCnt).1, evictExpired_max_size,
      putBase_max_size]
  have hlen : c1.entries.length ≤ c2.entries.length := by
    rw [hMem]
    exact memLoop_length_le _ _ _
  have hlen2 : c'.entries.length = c1.entries.length + 1 := by
    rw [hc']
    simp
  rw [hms] at hlt
  omega

/-- C2 witness: a concrete `put` on a capacity-2 cache ends with at most two
entries. -/
theorem put_entries_le_max_size_example :
    (demoPutRes.entries.length : Int) ≤ demoCache.max_size :=
  put_entries_le_max_size demoCache 0 5 .other none demoPutRes
    (Option.some_get (by decide)).symm

/-- C3: after a returning `put`, `total_memory` is at most `max_memory`,
except when the inserted value's estimated size alone exceeds `max_memory`
(the entry is kept and the ceiling is exceeded); and the memory loop's
terminal signal holds: `_evict_one` on an empty store yields `false`. -/
theorem put_memory_bound_or_oversized (c : Cache) (now k : Nat) (v : Value)
    (ttl : Option Nat) (c' : Cache) (hm : c.memOk)
    (h : c.put now k v ttl = some c') :
    (c'.total_memory ≤ c.max_memory ∨
        (estimateSize v : Int) > c.max_memory) ∧
      ∀ d : Cache, d.entries = [] → d.evictOne = (false, d) := by
  refine ⟨?_, fun d hd => evictOne_empty d hd⟩
  rcases put_some h with ⟨c1, hE, hc'⟩
  rcases evictIfNeeded_some hE with ⟨c2, hCnt, hMem⟩
  have hm2 : c2.memOk :=
    countLoop_memOk _ _ _ (evictExpired_memOk now (putBase_memOk k hm)) hCnt
  have hm1 : c1.memOk := by
    rw [hMem]
    exact memLoop_memOk _ _ _ hm2
  have hmm : c1.max_memory = c.max_memory := by
    rw [hMem, memLoop_max_memory, (countLoop_config _ _ _ hCnt).2.1,
      evictExpired_max_memory, putBase_max_memory]
  have hpost := memLoop_post (c2.entries.length + 1) (estimateSize v : Int)
    c2 (by omega)
  rw [← hMem] at hpost
  have htot : c'.total_memory = c1.total_memory + (estimateSize v : Int) := by
    rw [hc']
  rcases hpost with hle | ⟨hnil, hgt⟩
  · left
    rw [htot]
    rw [hmm] at hle
    exact hle
  · right
    have h0 : c1.total_memory = 0 := by
      unfold Cache.memOk at hm1
      rw [hnil] at hm1
      simpa using hm1
    rw [h0, hmm] at hgt
    simpa using hgt

/-- C3 witness: the concrete `put` of `demoPutRes` stays within the memory
ceiling (left disjunct). -/
theorem put_memory_bound_or_oversized_example :
    demoPutRes.total_memory ≤ demoCache.max_memory ∨
      (estimateSize Value.other : Int) > demoCache.max_memory :=
  (put_memory_bound_or_oversized demoCache 0 5 .other none demoPutRes
    (by decide) (Option.some_get (by decide)).symm).1

/-- C4 (code bug): `create_cache` performs no validation, and a `put` on a
cache configured with non-positive `max_size` never returns — the
entry-count loop ignores `_evict_one`'s `false` result and spins forever on
the empty store.  In the embedding the non-returning run is `none`. -/
theorem createCache_nonpos_max_size_put_diverges (m : CacheManager)
    (name : String) (ms mm : Int) (pol : String) (ttl : Option Nat)
    (hms : ms ≤ 0) (now k : Nat) (v : Value) (t : Option Nat) :
    ((m.createCache name ms mm pol ttl).2).put now k v t = none :=
  put_none_of_nonpos_max_size _ hms now k v t

/-- C4 witness: a cache created with `max_size = 0` diverges on its very
first `put`. -/
theorem createCache_nonpos_max_size_put_diverges_example :
    ((emptyManager.createCache "x" 0 1000 CachePolicy.LRU none).2).put
      0 0 .other none = none :=
  createCache_nonpos_max_size_put_diverges emptyManager "x" 0 1000
    CachePolicy.LRU none (by decide) 0 0 .other none

/-- C5: `get` on an expired entry removes it, bumps the miss counter (not
the hit counter), and returns the caller-supplied default (`none` in the
embedding); afterwards the key is absent. -/
theorem get_expired_removes_and_misses (c : Cache) (now k : Nat)
    (e : CacheEntry) (hl : lookupEntry c.entries k = some e)
    (hx : e.isExpired now = true) (hn : c.keysNodup) :
    (c.get now k).1 = none ∧
      (c.get now k).2.misses = c.misses + 1 ∧
      (c.get now k).2.hits = c.hits ∧
      lookupEntry (c.get now k).2.entries k = none := by
  unfold Cache.get
  rw [hl]
  dsimp only
  rw [if_pos hx]
  refine ⟨rfl, by simp, by simp, ?_⟩
  show lookupEntry (c.remove k).2.entries k = none
  rw [remove_entries_of_some hl]
  exact lookupEntry_eraseKey_self hn

/-- C5 witness: the stale entry of `staleCache` is gone after an expired
`get`, which reports a miss. -/
theorem get_expired_removes_and_misses_example :
    (staleCache.get 10 0).1 = none ∧
      lookupEntry (staleCache.get 10 0).2.entries 0 = none := by
  have h := get_expired_removes_and_misses staleCache 10 0
    (mkEntry 0 0 .other (some 5)) rfl rfl (by decide)
  exact ⟨h.1, h.2.2.2⟩

/-- C6: LRU, capacity 2 — `put a; put b; get a; put c` evicts `b` and keeps
exactly `a` and `c` (here keys 0, 1, 2). -/
theorem lru_trace_evicts_middle :
    ((mkCache "t" 2 1000000 CachePolicy.LRU none).applyOps
        [.put 0 0 .other none, .put 1 1 .other none, .get 2 0,
         .put 3 2 .other none]).map
        (fun c => c.entries.map (fun e => e.key)) = some [0, 2] := by
  decide

/-- C7: LFU, capacity 2 — `put a; put b; get a; get a; get a; put c` evicts
`b` (minimum access count) and keeps exactly `a` and `c` (keys 0, 1, 2). -/
theorem lfu_trace_evicts_low_count :
    ((mkCache "t" 2 1000000 CachePolicy.LFU none).applyOps
        [.put 0 0 .other none, .put 1 1 .other none, .get 2 0, .get 3 0,
         .get 4 0, .put 5 2 .other none]).map
        (fun c => c.entries.map (fun e => e.key)) = some [0, 2] := by
  decide

/-- C8 counterexample: at the exact boundary `now - last_gc_time =
gc_interval` the claim says the sweep runs and removes every expired entry,
but `update` uses a strict comparison and is a no-op, so the expired entry
survives and no reclamation flag is raised. -/
theorem update_boundary_keeps_expired :
    10 - staleManager.last_gc_time ≥ staleManager.gc_interval ∧
      ((staleManager.update 10).1.caches.map
        (fun p => p.2.entries.map (fun e => e.isExpired 10))) = [[true]] ∧
      (staleManager.update 10).2 = false := by
  decide

/-- C8 (amended): `update` is a no-op whenever `now - last_gc_time ≤
gc_interval`; whenever `now - last_gc_time > gc_interval` (strictly) it
removes every expired entry from every registered cache and raises the
forced-reclamation flag exactly when aggregate memory exceeds the hard
200 MB ceiling. -/
theorem update_sweep_characterization (m : CacheManager) (now : Nat)
    (hwf : ∀ p ∈ m.caches, Cache.keysNodup p.2) :
    (now - m.last_gc_time ≤ m.gc_interval → m.update now = (m, false)) ∧
    (now - m.last_gc_time > m.gc_interval →
      (∀ p ∈ (m.update now).1.caches, ∀ e ∈ p.2.entries,
          e.isExpired now = false) ∧
      ((m.update now).2 = true ↔
        (m.update now).1.getTotalMemory > 200 * 1024 * 1024)) := by
  constructor
  · intro hle
    unfold CacheManager.update
    rw [if_neg (by omega)]
  · intro hgt
    have hupd : m.update now =
        ({ (m.runGarbageCollection now).1 with last_gc_time := now },
          (m.runGarbageCollection now).2) := by
      unfold CacheManager.update
      rw [if_pos hgt]
    constructor
    · intro p hp e he
      rw [hupd] at hp
      unfold CacheManager.runGarbageCollection at hp
      dsimp only at hp
      rcases List.mem_map.1 hp with ⟨q, hq, rfl⟩
      exact evictExpired_no_expired (hwf q hq) e he
    · rw [hupd]
      unfold CacheManager.runGarbageCollection
      dsimp only
      exact decide_eq_true_iff

/-- C8 witness: one tick past the interval, the sweep does run and clears
the stale entry. -/
theorem update_sweep_characterization_example :
    11 - staleManager.last_gc_time > staleManager.gc_interval ∧
      ∀ p ∈ (staleManager.update 11).1.caches, ∀ e ∈ p.2.entries,
        e.isExpired 11 = false :=
  ⟨by decide,
    ((update_sweep_characterization staleManager 11 (by decide)).2
      (by decide)).1⟩

/-- C9: under the LFU policy `_evict_one` removes exactly the key of the
left-to-right minimum of `access_count` — a member attaining the minimum
whose earlier neighbours all have strictly larger counts — and a
non-expired `get` never reorders the entries, so the tie-break is
deterministically oldest-by-insertion. -/
theorem lfu_evict_first_min (c : Cache) (e : CacheEntry)
    (es : List CacheEntry) (hp : c.policy = CachePolicy.LFU)
    (he : c.entries = e :: es) :
    c.evictOne = c.remove (minByAccessCount e es).key ∧
    minByAccessCount e es ∈ c.entries ∧
    (∀ x ∈ c.entries,
        (minByAccessCount e es).access_count ≤ x.access_count) ∧
    (∃ l1 l2, c.entries = l1 ++ minByAccessCount e es :: l2 ∧
        ∀ x ∈ l1, (minByAccessCount e es).access_count < x.access_count) ∧
    (∀ (now k : Nat) (e0 : CacheEntry), lookupEntry c.entries k = some e0 →
        e0.isExpired now = false →
        (c.get now k).2.entries.map (fun x => x.key) =
          c.entries.map (fun x => x.key)) := by
  have h1 : ¬(c.policy = CachePolicy.LRU) := by
    rw [hp]
    decide
  refine ⟨?_, ?_, ?_, ?_, ?_⟩
  · rw [evictOne_eq_remove c e es he, if_neg h1, if_pos hp]
  · rw [he]
    exact minByAccessCount_mem es e
  · intro x hx
    rw [he] at hx
    exact minByAccessCount_le es e x hx
  · rcases minByAccessCount_first es e with ⟨l1, l2, heq, hlt⟩
    exact ⟨l1, l2, by rw [he, ← heq], hlt⟩
  · intro now k e0 hlk hnx
    unfold Cache.get
    rw [hlk]
    dsimp only
    rw [if_neg (by rw [hnx]; simp)]
    dsimp only
    rw [if_neg h1]
    have hk0 : e0.key = k := lookupEntry_key hlk
    have hk1 : ((e0.access now).2).key = k := hk0
    exact replaceFirst_map_key hk1

/-- C9 witness: with counts 1, 0, 0 in insertion order, the victim is the
earlier of the two count-0 entries. -/
theorem lfu_evict_first_min_example :
    lfuTieCache.evictOne =
        lfuTieCache.remove (minByAccessCount tieE0 [tieE1, tieE2]).key ∧
      minByAccessCount tieE0 [tieE1, tieE2] ∈ lfuTieCache.entries := by
  have h := lfu_evict_first_min lfuTieCache tieE0 [tieE1, tieE2] rfl rfl
  exact ⟨h.1, h.2.1⟩

/-- C10: a returning `put` of a value whose estimated size alone exceeds
`max_memory` into a non-empty cache first evicts every pre-existing entry,
so the oversized entry ends up as the only entry. -/
theorem put_oversized_leaves_single_entry (c : Cache) (now k : Nat)
    (v : Value) (ttl : Option Nat) (c' : Cache) (hm : c.memOk)
    (hne : c.entries ≠ []) (hN : 1 ≤ c.max_size)
    (hover : (estimateSize v : Int) > c.max_memory)
    (h : c.put now k v ttl = some c') :
    c'.entries = [mkEntry now k v (ttlOr ttl c.default_ttl)] := by
  rcases put_some h with ⟨c1, hE, hc'⟩
  rcases evictIfNeeded_some hE with ⟨c2, hCnt, hMem⟩
  have hm2 : c2.memOk :=
    countLoop_memOk _ _ _ (evictExpired_memOk now (putBase_memOk k hm)) hCnt
  have hm1 : c1.memOk := by
    rw [hMem]
    exact memLoop_memOk _ _ _ hm2
  have hmm : c1.max_memory = c.max_memory := by
    rw [hMem, memLoop_max_memory, (countLoop_config _ _ _ hCnt).2.1,
      evictExpired_max_memory, putBase_max_memory]
  have hnn : 0 ≤ c1.total_memory := by
    unfold Cache.memOk at hm1
    rw [hm1]
    exact sumSizes_nonneg _
  have hpost := memLoop_post (c2.entries.length + 1) (estimateSize v : Int)
    c2 (by omega)
  rw [← hMem] at hpost
  rcases hpost with hle | ⟨hnil, _⟩
  · exfalso
    rw [hmm] at hle
    omega
  · rw [hc', hnil]
    simp

/-- C10 witness: a 400-byte surface put into a 100-byte-ceiling cache that
held one 64-byte entry leaves only the oversized entry. -/
theorem put_oversized_leaves_single_entry_example :
    overPutRes.entries =
      [mkEntry 1 1 (.surface 10 10) (ttlOr none bigPutCache.default_ttl)] :=
  put_oversized_leaves_single_entry bigPutCache 1 1 (.surface 10 10) none
    overPutRes (by decide) (List.cons_ne_nil _ _) (by decide) (by decide)
    (Option.some_get (by decide)).symm
